import Mathlib

/-!
Shallow embedding of the N-Gram Search Query Analyzer (Google Ads script).

The source is a JavaScript batch program; its core is:
  * `getSearchQueryData`  — ingestion: lower-cases each raw query string
    (external I/O rows are out of scope; the lower-casing is part of the
    pipeline and is modelled inside `tokenize`);
  * `analyzeNgrams(queryData, ngramSize)` — tokenization (split on runs of
    whitespace, keep tokens of length > 1 not in the stop-word set),
    sliding-window n-gram generation (`words.slice(i, i+n).join(' ')` for
    `0 <= i <= words.length - n`), accumulation into an insertion-ordered
    map keyed by n-gram text, and a post-pass computing derived rates with
    zero-denominator guards;
  * `generateRecommendations(ngramResults)` — threshold classification into
    keyword-opportunity and negative-candidate lists, then sort and cap 100;
  * `main` — orchestration (early return on empty data, no configuration
    validation).

JavaScript numbers: `Impressions`/`Clicks` come through `parseInt` and are
modelled as `Nat`; `Cost`/`Conversions`/`ConversionValue` come through
`parseFloat` and are modelled as `Rat` (exact arithmetic). JS objects used
as string-keyed maps are modelled as insertion-ordered association lists
(`for (var key in m)` visits string keys in insertion order).
Query strings are modelled as `List Char`.
-/

/-- One row of the search query report, as built by `getSearchQueryData`
(the `query` field there is already lower-cased; here `query` holds the raw
text and lower-casing happens in `tokenize`, which composes to the same
pipeline behaviour). -/
structure QueryRecord where
  query : List Char
  campaign : List Char
  impressions : ℕ
  clicks : ℕ
  cost : ℚ
  conversions : ℚ
  conversionValue : ℚ
deriving DecidableEq

/-- Accumulated raw sums for one n-gram key, mirroring the object literal
created in `analyzeNgrams` (`queries`, `impressions`, `clicks`, `cost`,
`conversions`, `conversionValue`; the `ngram` text field is carried by the
association-list key and re-attached in `derive`). -/
structure NgramStats where
  queries : ℕ
  impressions : ℕ
  clicks : ℕ
  cost : ℚ
  conversions : ℚ
  conversionValue : ℚ
deriving DecidableEq

/-- The zero-initialised stats object created on first occurrence of a key. -/
def zeroStats : NgramStats :=
  { queries := 0, impressions := 0, clicks := 0, cost := 0,
    conversions := 0, conversionValue := 0 }

/-- One accumulation step: `ngrams[ngram].queries++` and the five `+=`
statements in `analyzeNgrams`. -/
def addRecord (q : QueryRecord) (s : NgramStats) : NgramStats :=
  { queries := s.queries + 1,
    impressions := s.impressions + q.impressions,
    clicks := s.clicks + q.clicks,
    cost := s.cost + q.cost,
    conversions := s.conversions + q.conversions,
    conversionValue := s.conversionValue + q.conversionValue }

/-- Worker for `jsSplitWs`: accumulates the current token (reversed) and a
flag recording whether the previous character was whitespace, so that a run
of whitespace produces a single split point, exactly like the JavaScript
`String.prototype.split(/\s+/)` (which keeps an empty string at the start
or end of the result when the input starts or ends with whitespace, and
returns `[""]` on the empty string). -/
def jsSplitAux : List Char → List Char → Bool → List (List Char)
  | [], acc, _ => [acc.reverse]
  | c :: rest, acc, prevWs =>
    if c.isWhitespace then
      if prevWs then jsSplitAux rest [] true
      else acc.reverse :: jsSplitAux rest [] true
    else jsSplitAux rest (c :: acc) false

/-- Embedding of `query.split(/\s+/)` from `analyzeNgrams`. -/
def jsSplitWs (s : List Char) : List (List Char) :=
  jsSplitAux s [] false

/-- The tokenizer of the pipeline: lower-casing (done in
`getSearchQueryData` via `row['Query'].toLowerCase()`), then
`split(/\s+/).filter(word => word.length > 1 && !stopWords[word])` from
`analyzeNgrams`. The stop-word object lookup is modelled as list
membership. -/
def tokenize (stop : List (List Char)) (s : List Char) : List (List Char) :=
  (jsSplitWs (s.map Char.toLower)).filter
    (fun w => 1 < w.length && !stop.contains w)

/-- Space-joined concatenation, the embedding of `Array.prototype.join(' ')`. -/
def joinSp (ts : List (List Char)) : List Char :=
  List.intercalate [' '] ts

/-- Embedding of the n-gram loop
`for (var i = 0; i <= words.length - ngramSize; i++) words.slice(i, i + ngramSize).join(' ')`.
The JS loop runs for `i = 0 .. L - n` in integer arithmetic, i.e. not at all
when `L - n < 0`; `List.range (L + 1 - n)` with truncated `Nat` subtraction
has exactly that iteration count for every `n ≥ 0`. -/
def ngramsOfTokens (words : List (List Char)) (n : ℕ) : List (List Char) :=
  (List.range (words.length + 1 - n)).map (fun i => joinSp ((words.drop i).take n))

/-- All n-grams produced for one query record. -/
def ngramsOfQuery (stop : List (List Char)) (n : ℕ) (q : QueryRecord) : List (List Char) :=
  ngramsOfTokens (tokenize stop q.query) n

/-- The n-gram map: an insertion-ordered association list (JS object with
string keys). -/
abbrev AggMap := List (List Char × NgramStats)

/-- Association-list lookup (`ngrams[key]`, `undefined` as `none`). -/
def lookupA (k : List Char) : AggMap → Option NgramStats
  | [] => none
  | (k', v) :: rest => if k' = k then some v else lookupA k rest

/-- One inner-loop iteration of `analyzeNgrams` for one produced n-gram:
create the zero record if the key is absent (a JS object gains new keys at
the end of its insertion order), then apply the `++`/`+=` accumulation. -/
def bump (q : QueryRecord) : AggMap → List Char → AggMap
  | [], k => [(k, addRecord q zeroStats)]
  | (k', v) :: rest, k =>
    if k' = k then (k', addRecord q v) :: rest else (k', v) :: bump q rest k

/-- Processing of one query record for one n-gram size: fold the bump over
the produced n-grams, in order (repeats within the same query each bump). -/
def addQuery (stop : List (List Char)) (n : ℕ) (m : AggMap) (q : QueryRecord) : AggMap :=
  (ngramsOfQuery stop n q).foldl (bump q) m

/-- The aggregation pass of `analyzeNgrams` over the whole record list. -/
def buildMap (stop : List (List Char)) (data : List QueryRecord) (n : ℕ) : AggMap :=
  data.foldl (addQuery stop n) []

/-- An aggregate after the derived-metrics post-pass of `analyzeNgrams`:
the raw sums plus `ctr`, `cpc`, `convRate`, `cpa`, `roas` and the stored
n-gram text. -/
structure NgramAgg where
  ngram : List Char
  queries : ℕ
  impressions : ℕ
  clicks : ℕ
  cost : ℚ
  conversions : ℚ
  conversionValue : ℚ
  ctr : ℚ
  cpc : ℚ
  convRate : ℚ
  cpa : ℚ
  roas : ℚ
deriving DecidableEq

/-- The derived-metrics post-pass for one entry:
`ng.ctr = ng.impressions > 0 ? ng.clicks / ng.impressions : 0` and the four
analogous guarded divisions. -/
def derive (k : List Char) (s : NgramStats) : NgramAgg :=
  { ngram := k,
    queries := s.queries,
    impressions := s.impressions,
    clicks := s.clicks,
    cost := s.cost,
    conversions := s.conversions,
    conversionValue := s.conversionValue,
    ctr := if 0 < s.impressions then (s.clicks : ℚ) / (s.impressions : ℚ) else 0,
    cpc := if 0 < s.clicks then s.cost / (s.clicks : ℚ) else 0,
    convRate := if 0 < s.clicks then s.conversions / (s.clicks : ℚ) else 0,
    cpa := if 0 < s.conversions then s.cost / s.conversions else 0,
    roas := if 0 < s.cost then s.conversionValue / s.cost else 0 }

/-- Map the derivation over all entries (the `for (var key in ngrams)`
post-pass mutates each record in place; here it rebuilds the list with the
same keys in the same order). -/
def deriveAll (m : AggMap) : List (List Char × NgramAgg) :=
  m.map (fun e => (e.1, derive e.1 e.2))

/-- Embedding of `analyzeNgrams(queryData, ngramSize)`: aggregation then
the derived-metrics post-pass, keyed by n-gram text. -/
def analyzeNgrams (stop : List (List Char)) (data : List QueryRecord) (n : ℕ) :
    List (List Char × NgramAgg) :=
  deriveAll (buildMap stop data n)

/-- Lookup in the derived map. -/
def lookupD (k : List Char) : List (List Char × NgramAgg) → Option NgramAgg
  | [] => none
  | (k', v) :: rest => if k' = k then some v else lookupD k rest

/-- The analysis settings of the `CONFIG` object that the classifier and
orchestrator read (the source reads a global; the embedding threads it as a
value). The stop-word list and the size list are passed alongside. -/
structure Config where
  minImpressions : ℕ
  minClicks : ℕ
  highCtrThreshold : ℚ
  lowCtrThreshold : ℚ
  highConvRate : ℚ
  highCpaMultiplier : ℚ
  targetCpa : ℚ
deriving DecidableEq

/-- The object pushed onto `keywords` in `generateRecommendations`
(fields in source order). -/
structure KeywordRec where
  ngram : List Char
  size : ℕ
  reason : String
  impressions : ℕ
  clicks : ℕ
  ctr : ℚ
  conversions : ℚ
  convRate : ℚ
  cpa : ℚ
deriving DecidableEq

/-- The object pushed onto `negatives` in `generateRecommendations`
(fields in source order). -/
structure NegativeRec where
  ngram : List Char
  size : ℕ
  reason : String
  impressions : ℕ
  clicks : ℕ
  ctr : ℚ
  cost : ℚ
  conversions : ℚ
  cpa : ℚ
deriving DecidableEq

/-- The loop body of `generateRecommendations` for one aggregate: the
low-volume `continue`, then — inside the `ng.clicks >= CONFIG.MIN_CLICKS`
block — the independent keyword-opportunity and negative-candidate pushes
with their reason precedence. Returns what this iteration pushes onto each
array. -/
def classifyEntry (cfg : Config) (s : ℕ) (ng : NgramAgg) :
    Option KeywordRec × Option NegativeRec :=
  if ng.impressions < cfg.minImpressions then (none, none)
  else if cfg.minClicks ≤ ng.clicks then
    ( if cfg.highCtrThreshold ≤ ng.ctr ∨ cfg.highConvRate ≤ ng.convRate then
        some { ngram := ng.ngram, size := s,
               reason := if cfg.highConvRate ≤ ng.convRate then "High conversion rate" else "High CTR",
               impressions := ng.impressions, clicks := ng.clicks, ctr := ng.ctr,
               conversions := ng.conversions, convRate := ng.convRate, cpa := ng.cpa }
      else none,
      if ng.ctr ≤ cfg.lowCtrThreshold ∨
         (0 < cfg.targetCpa ∧ cfg.targetCpa * cfg.highCpaMultiplier < ng.cpa) then
        some { ngram := ng.ngram, size := s,
               reason := if ng.ctr ≤ cfg.lowCtrThreshold then "Low CTR" else "High CPA",
               impressions := ng.impressions, clicks := ng.clicks, ctr := ng.ctr,
               cost := ng.cost, conversions := ng.conversions, cpa := ng.cpa }
      else none )
  else (none, none)

/-- The `keywords` array as built by the nested loops of
`generateRecommendations` (sizes outer, insertion-ordered keys inner),
before sorting and capping. -/
def keywordCandidates (cfg : Config) (sizes : List ℕ)
    (results : ℕ → List (List Char × NgramAgg)) : List KeywordRec :=
  sizes.flatMap (fun s => (results s).filterMap (fun e => (classifyEntry cfg s e.2).1))

/-- The `negatives` array as built by the nested loops of
`generateRecommendations`, before sorting and capping. -/
def negativeCandidates (cfg : Config) (sizes : List ℕ)
    (results : ℕ → List (List Char × NgramAgg)) : List NegativeRec :=
  sizes.flatMap (fun s => (results s).filterMap (fun e => (classifyEntry cfg s e.2).2))

/-- The return value of `generateRecommendations`. -/
structure Recommendations where
  keywords : List KeywordRec
  negatives : List NegativeRec
deriving DecidableEq

/-- Comparator `function(a, b) { return b.conversions - a.conversions; }`:
`a` sorts before `b` exactly when the comparator is `≤ 0`. -/
def kwLe (a b : KeywordRec) : Bool :=
  decide (b.conversions ≤ a.conversions)

/-- Comparator `function(a, b) { return b.cost - a.cost; }`. -/
def negLe (a b : NegativeRec) : Bool :=
  decide (b.cost ≤ a.cost)

/-- Embedding of `generateRecommendations(ngramResults)`: build both
candidate arrays, sort each by its comparator (JS `Array.prototype.sort`
is stable; modelled by merge sort), then `slice(0, 100)`. -/
def generateRecommendations (cfg : Config) (sizes : List ℕ)
    (results : ℕ → List (List Char × NgramAgg)) : Recommendations :=
  { keywords := ((keywordCandidates cfg sizes results).mergeSort kwLe).take 100,
    negatives := ((negativeCandidates cfg sizes results).mergeSort negLe).take 100 }

/-- Error taxonomy the specification ascribes to the orchestrator. The
source `main` has no throw site for it; it exists so that the orchestration
result type can express "a configuration error was surfaced". -/
inductive ConfigError where
  | invalidSizes : ConfigError
deriving DecidableEq

/-- Result of one `main` run: the early `return` on empty query data, or
the per-size aggregate maps plus the recommendations. -/
inductive MainOutput where
  | noData : MainOutput
  | done : List (ℕ × List (List Char × NgramAgg)) → Recommendations → MainOutput
deriving DecidableEq

/-- Embedding of `main()` (reporting and logging side effects elided):
fetch the data, return early when it is empty, otherwise run
`analyzeNgrams` for every configured size and `generateRecommendations`
over the results. There is no validation of `sizes`: every branch returns
`Except.ok`. -/
def runMain (cfg : Config) (sizes : List ℕ) (stop : List (List Char))
    (data : List QueryRecord) : Except ConfigError MainOutput :=
  if data = [] then Except.ok MainOutput.noData
  else
    Except.ok (MainOutput.done
      (sizes.map (fun s => (s, analyzeNgrams stop data s)))
      (generateRecommendations cfg sizes (analyzeNgrams stop data)))

/-- The literal values of the source `CONFIG` that the core reads. -/
def defaultConfig : Config :=
  { minImpressions := 50, minClicks := 5,
    highCtrThreshold := 5 / 100, lowCtrThreshold := 1 / 100,
    highConvRate := 3 / 100, highCpaMultiplier := 2, targetCpa := 0 }

/-- The literal `CONFIG.NGRAM_SIZES`. -/
def defaultSizes : List ℕ := [1, 2, 3]

/-- The literal `CONFIG.STOP_WORDS`. -/
def defaultStopWords : List (List Char) :=
  ["a", "an", "the", "and", "or", "but", "in", "on", "at", "to", "for",
   "of", "with", "by", "from", "as", "is", "was", "are", "were", "been",
   "be", "have", "has", "had", "do", "does", "did", "will", "would",
   "could", "should", "may", "might", "must", "shall", "can", "need",
   "it", "its", "my", "your", "our", "their", "this", "that", "these",
   "those", "i", "you", "he", "she", "we", "they", "what", "which",
   "who", "whom", "how", "when", "where", "why"].map String.toList

/-- Worker for `cleanSplitWs`, written from the specification's words:
splitting on runs of whitespace yields the maximal non-empty runs of
non-whitespace characters, with no boundary artifacts. -/
def cleanSplitAux : List Char → List Char → List (List Char)
  | [], acc => if acc = [] then [] else [acc.reverse]
  | c :: rest, acc =>
    if c.isWhitespace then
      if acc = [] then cleanSplitAux rest []
      else acc.reverse :: cleanSplitAux rest []
    else cleanSplitAux rest (c :: acc)

/-- Splitting on runs of whitespace as the specification describes it. -/
def cleanSplitWs (s : List Char) : List (List Char) :=
  cleanSplitAux s []

/-- Modelled from the spec (§4.1 Tokenizer contract): lower-case the
string, split on runs of whitespace, keep the tokens of length > 1 that
are not in the stop-word set. -/
def specTokenize (stop : List (List Char)) (s : List Char) : List (List Char) :=
  (cleanSplitWs (s.map Char.toLower)).filter
    (fun w => 1 < w.length && !stop.contains w)

/-- Number of (query, occurrence) pairs in `data` producing the n-gram
text `k` — the reference count the specification describes. -/
def occTotal (stop : List (List Char)) (n : ℕ) (k : List Char) : List QueryRecord → ℕ
  | [] => 0
  | q :: rest => (ngramsOfQuery stop n q).count k + occTotal stop n k rest

/-- Field-wise sum of stats. -/
def statsAdd (a b : NgramStats) : NgramStats :=
  { queries := a.queries + b.queries,
    impressions := a.impressions + b.impressions,
    clicks := a.clicks + b.clicks,
    cost := a.cost + b.cost,
    conversions := a.conversions + b.conversions,
    conversionValue := a.conversionValue + b.conversionValue }

/-- The stats contributed by `c` occurrences drawn from one query record:
`queryCount` grows by the occurrence count and every metric by the
query's full value once per occurrence. -/
def scaleUnit (c : ℕ) (q : QueryRecord) : NgramStats :=
  { queries := c,
    impressions := c * q.impressions,
    clicks := c * q.clicks,
    cost := (c : ℚ) * q.cost,
    conversions := (c : ℚ) * q.conversions,
    conversionValue := (c : ℚ) * q.conversionValue }

/-- Reference totals for the n-gram text `k`: the sum over all records of
that record's occurrence-scaled contribution. -/
def statsTotal (stop : List (List Char)) (n : ℕ) (k : List Char) : List QueryRecord → NgramStats
  | [] => zeroStats
  | q :: rest =>
    statsAdd (scaleUnit ((ngramsOfQuery stop n q).count k) q) (statsTotal stop n k rest)

/-- Splitting a string at every occurrence of one character (used to state
that an n-gram key splits on single spaces into its tokens). Always
returns one more part than there are separator occurrences. -/
def splitAtChar (c : Char) : List Char → List (List Char)
  | [] => [[]]
  | d :: rest =>
    if d = c then [] :: splitAtChar c rest
    else
      match splitAtChar c rest with
      | [] => [[d]]
      | p :: ps => (d :: p) :: ps

/-- Repeated application of `addRecord`, the net effect of one query's
occurrences of one key. -/
def iterAdd : ℕ → QueryRecord → NgramStats → NgramStats
  | 0, _, s => s
  | c + 1, q, s => iterAdd c q (addRecord q s)

/-- Under a filter that rejects the empty token, the JavaScript splitter
and the specification's run splitter agree: the only differences are the
empty-string boundary artifacts of `split(/\s+/)`. The flag invariant says
the accumulator is empty right after a whitespace run. -/
theorem filter_jsSplitAux (p : List Char → Bool) (hp : p [] = false) :
    ∀ (s acc : List Char) (b : Bool), (b = true → acc = []) →
      (jsSplitAux s acc b).filter p = (cleanSplitAux s acc).filter p
  | [], acc, b, _ => by
    by_cases ha : acc = []
    · subst ha; simp [jsSplitAux, cleanSplitAux, hp]
    · simp [jsSplitAux, cleanSplitAux, ha]
  | c :: rest, acc, b, hb => by
    by_cases hw : c.isWhitespace
    · cases b with
      | true =>
        have ha := hb rfl; subst ha
        simp only [jsSplitAux, cleanSplitAux, hw, if_true]
        exact filter_jsSplitAux p hp rest [] true (fun _ => rfl)
      | false =>
        have ih := filter_jsSplitAux p hp rest [] true (fun _ => rfl)
        by_cases ha : acc = []
        · subst ha
          simp only [jsSplitAux, cleanSplitAux, hw]
          simp [hp, ih]
        · simp only [jsSplitAux, cleanSplitAux, hw]
          simp [ha, List.filter_cons, ih]
    · simp only [jsSplitAux, cleanSplitAux, hw, if_false, Bool.false_eq_true]
      exact filter_jsSplitAux p hp rest (c :: acc) false (by simp)

/-- The pipeline tokenizer coincides with the specification's tokenizer. -/
theorem tokenize_eq_spec (stop : List (List Char)) (s : List Char) :
    tokenize stop s = specTokenize stop s := by
  unfold tokenize specTokenize jsSplitWs cleanSplitWs
  exact filter_jsSplitAux _ (by simp) _ [] false (by simp)

/-- The run splitter yields nothing on all-whitespace input. -/
theorem cleanSplitAux_all_ws :
    ∀ s : List Char, (∀ c ∈ s, c.isWhitespace = true) → cleanSplitAux s [] = []
  | [], _ => by simp [cleanSplitAux]
  | c :: rest, h => by
    have hc : c.isWhitespace = true := h c (List.mem_cons_self c rest)
    simp only [cleanSplitAux, hc, if_true, if_pos rfl]
    exact cleanSplitAux_all_ws rest (fun d hd => h d (List.mem_cons_of_mem _ hd))

/-- Lower-casing keeps whitespace whitespace. -/
theorem toLower_isWhitespace (c : Char) (h : c.isWhitespace = true) :
    (Char.toLower c).isWhitespace = true := by
  have hc : ((c = ' ' ∨ c = '\t') ∨ c = '\x0d') ∨ c = '\n' := by
    simpa [Char.isWhitespace] using h
  rcases hc with ((hc | hc) | hc) | hc <;> subst hc <;> decide

/-- C6: for every raw query string, the core tokenizer lower-cases the
string, splits it on runs of whitespace, and returns the ordered sequence
of tokens of length > 1 that are not in the stop-word set (stated as
agreement with `specTokenize`, written from the spec's words); an empty or
whitespace-only input yields an empty token sequence. -/
theorem tokenizer_contract (stop : List (List Char)) (s : List Char) :
    tokenize stop s = specTokenize stop s ∧
    ((∀ c ∈ s, c.isWhitespace = true) → tokenize stop s = []) := by
  refine ⟨tokenize_eq_spec stop s, fun h => ?_⟩
  rw [tokenize_eq_spec]
  unfold specTokenize cleanSplitWs
  rw [cleanSplitAux_all_ws]
  · simp
  · intro d hd
    rcases List.mem_map.mp hd with ⟨c, hc, rfl⟩
    exact toLower_isWhitespace c (h c hc)

/-- Witness for C6 at a concrete whitespace-only input. -/
theorem tokenizer_contract_witness :
    tokenize defaultStopWords [' ', '\t'] = [] :=
  (tokenizer_contract defaultStopWords [' ', '\t']).2 (by decide)

/-- C4: for every token sequence of length `L` and size `n ≥ 1`, the
n-gram generator produces the empty sequence when `L < n`, and otherwise
exactly the `L - n + 1` contiguous n-gram strings, each the space-joined
concatenation of `n` consecutive tokens, in left-to-right order. -/
theorem ngram_generator_contract (words : List (List Char)) (n : ℕ) (hn : 1 ≤ n) :
    (words.length < n → ngramsOfTokens words n = []) ∧
    (n ≤ words.length →
      (ngramsOfTokens words n).length = words.length - n + 1 ∧
      ∀ i, i < words.length - n + 1 →
        (ngramsOfTokens words n).getD i [] = joinSp ((words.drop i).take n) ∧
        ((words.drop i).take n).length = n) := by
  constructor
  · intro h
    have h0 : words.length + 1 - n = 0 := by omega
    simp [ngramsOfTokens, h0]
  · intro h
    constructor
    · simp only [ngramsOfTokens, List.length_map, List.length_range]
      omega
    · intro i hi
      have hrange : i < words.length + 1 - n := by omega
      constructor
      · simp only [ngramsOfTokens, List.getD_eq_getElem?_getD, List.getElem?_map,
          List.getElem?_range hrange, Option.map_some', Option.getD_some]
      · simp only [List.length_take, List.length_drop]
        omega

/-- Witness for C4 at a concrete token list and size. -/
theorem ngram_generator_contract_witness :
    (ngramsOfTokens (["ab", "cd", "ef"].map String.toList) 2).length =
      (["ab", "cd", "ef"].map String.toList).length - 2 + 1 :=
  ((ngram_generator_contract (["ab", "cd", "ef"].map String.toList) 2
      (by decide)).2 (by decide)).1

/-- C5: each derived metric equals its ratio with a zero denominator
yielding 0 (`ctr`, `cpc`, `convRate` over `Nat` denominators; `cpa`, `roas`
over the non-negative rational sums guaranteed by the data model), and the
derivation is a total function — no error or NaN is possible. -/
theorem derived_metrics_safe (k : List Char) (s : NgramStats)
    (hcost : 0 ≤ s.cost) (hconv : 0 ≤ s.conversions) :
    (derive k s).ctr = (if s.impressions = 0 then 0 else (s.clicks : ℚ) / (s.impressions : ℚ)) ∧
    (derive k s).cpc = (if s.clicks = 0 then 0 else s.cost / (s.clicks : ℚ)) ∧
    (derive k s).convRate = (if s.clicks = 0 then 0 else s.conversions / (s.clicks : ℚ)) ∧
    (derive k s).cpa = (if s.conversions = 0 then 0 else s.cost / s.conversions) ∧
    (derive k s).roas = (if s.cost = 0 then 0 else s.conversionValue / s.cost) := by
  refine ⟨?_, ?_, ?_, ?_, ?_⟩
  · by_cases h : s.impressions = 0 <;> simp [derive, h, Nat.pos_iff_ne_zero]
  · by_cases h : s.clicks = 0 <;> simp [derive, h, Nat.pos_iff_ne_zero]
  · by_cases h : s.clicks = 0 <;> simp [derive, h, Nat.pos_iff_ne_zero]
  · rcases eq_or_lt_of_le hconv with h | h
    · simp [derive, ← h]
    · simp [derive, h, h.ne']
  · rcases eq_or_lt_of_le hcost with h | h
    · simp [derive, ← h]
    · simp [derive, h, h.ne']

/-- Witness for C5 at the zero stats record. -/
theorem derived_metrics_safe_witness :
    (derive [] zeroStats).roas = (if zeroStats.cost = 0 then 0 else zeroStats.conversionValue / zeroStats.cost) :=
  (derived_metrics_safe [] zeroStats (by decide) (by decide)).2.2.2.2

/-- Stats addition is commutative (field-wise). -/
theorem statsAdd_comm (a b : NgramStats) : statsAdd a b = statsAdd b a := by
  unfold statsAdd; congr 1 <;> ring

/-- Stats addition is associative (field-wise). -/
theorem statsAdd_assoc (a b c : NgramStats) :
    statsAdd (statsAdd a b) c = statsAdd a (statsAdd b c) := by
  unfold statsAdd; congr 1 <;> ring

/-- Zero stats are neutral on the left. -/
theorem zero_statsAdd (s : NgramStats) : statsAdd zeroStats s = s := by
  unfold statsAdd zeroStats; congr 1 <;> simp

/-- Zero stats are neutral on the right. -/
theorem statsAdd_zero (s : NgramStats) : statsAdd s zeroStats = s := by
  rw [statsAdd_comm]; exact zero_statsAdd s

/-- Zero occurrences contribute zero stats. -/
theorem scaleUnit_zero (q : QueryRecord) : scaleUnit 0 q = zeroStats := by
  simp [scaleUnit, zeroStats]

/-- Iterated accumulation equals the occurrence-scaled contribution. -/
theorem iterAdd_eq (c : ℕ) (q : QueryRecord) (s : NgramStats) :
    iterAdd c q s = statsAdd s (scaleUnit c q) := by
  induction c generalizing s with
  | zero => simp [iterAdd, statsAdd_zero, scaleUnit_zero]
  | succ c ih =>
    rw [iterAdd, ih]
    unfold statsAdd scaleUnit addRecord
    congr 1 <;> push_cast <;> ring

/-- Effect of one `bump` on a lookup. -/
theorem lookup_bump (q : QueryRecord) (j k : List Char) :
    ∀ m : AggMap, lookupA k (bump q m j) =
      if j = k then some (addRecord q ((lookupA k m).getD zeroStats)) else lookupA k m
  | [] => by
    by_cases h : j = k <;> simp [bump, lookupA, h]
  | (k₀, v) :: rest => by
    by_cases h0 : k₀ = j
    · subst h0
      by_cases hk : k₀ = k
      · subst hk; simp [bump, lookupA]
      · simp [bump, lookupA, hk]
    · by_cases hk : k₀ = k
      · subst hk
        have hjk : ¬ j = k₀ := fun h => h0 h.symm
        simp [bump, lookupA, h0, hjk]
      · simp [bump, lookupA, h0, hk, lookup_bump q j k rest]

/-- Folding the bumps of one query over a present key applies `addRecord`
once per occurrence of that key. -/
theorem lookup_foldl_bump_some (q : QueryRecord) (k : List Char) :
    ∀ (ks : List (List Char)) (m : AggMap) (s : NgramStats),
      lookupA k m = some s →
      lookupA k (ks.foldl (bump q) m) = some (iterAdd (ks.count k) q s)
  | [], m, s, h => by simpa [iterAdd] using h
  | j :: ks, m, s, h => by
    rw [List.foldl_cons]
    by_cases hj : j = k
    · have h1 : lookupA k (bump q m j) = some (addRecord q s) := by
        rw [lookup_bump, if_pos hj, h]; rfl
      rw [lookup_foldl_bump_some q k ks _ _ h1]
      simp [List.count_cons, iterAdd, hj]
    · have h1 : lookupA k (bump q m j) = some s := by
        rw [lookup_bump, if_neg hj]; exact h
      rw [lookup_foldl_bump_some q k ks _ _ h1]
      have hkj : ¬ k = j := fun h' => hj h'.symm
      simp [List.count_cons, hkj]

/-- Folding the bumps of one query over an absent key creates it exactly
when the key occurs, with the iterated accumulation from zero. -/
theorem lookup_foldl_bump_none (q : QueryRecord) (k : List Char) :
    ∀ (ks : List (List Char)) (m : AggMap),
      lookupA k m = none →
      lookupA k (ks.foldl (bump q) m) =
        if ks.count k = 0 then none else some (iterAdd (ks.count k) q zeroStats)
  | [], m, h => by simpa using h
  | j :: ks, m, h => by
    rw [List.foldl_cons]
    by_cases hj : j = k
    · have h1 : lookupA k (bump q m j) = some (addRecord q zeroStats) := by
        rw [lookup_bump, if_pos hj, h]; rfl
      rw [lookup_foldl_bump_some q k ks _ _ h1]
      simp [List.count_cons, iterAdd, hj]
    · have h1 : lookupA k (bump q m j) = none := by
        rw [lookup_bump, if_neg hj]; exact h
      rw [lookup_foldl_bump_none q k ks _ h1]
      have hkj : ¬ k = j := fun h' => hj h'.symm
      simp [List.count_cons, hkj]

/-- Effect of one whole query on a present key. -/
theorem lookup_addQuery_some (stop : List (List Char)) (n : ℕ) (q : QueryRecord)
    (k : List Char) (m : AggMap) (s : NgramStats) (h : lookupA k m = some s) :
    lookupA k (addQuery stop n m q) =
      some (statsAdd s (scaleUnit ((ngramsOfQuery stop n q).count k) q)) := by
  unfold addQuery
  rw [lookup_foldl_bump_some q k _ m s h, iterAdd_eq]

/-- Effect of one whole query on an absent key. -/
theorem lookup_addQuery_none (stop : List (List Char)) (n : ℕ) (q : QueryRecord)
    (k : List Char) (m : AggMap) (h : lookupA k m = none) :
    lookupA k (addQuery stop n m q) =
      if (ngramsOfQuery stop n q).count k = 0 then none
      else some (statsAdd zeroStats (scaleUnit ((ngramsOfQuery stop n q).count k) q)) := by
  unfold addQuery
  rw [lookup_foldl_bump_none q k _ m h]
  by_cases h0 : (ngramsOfQuery stop n q).count k = 0 <;> simp [h0, iterAdd_eq, zero_statsAdd]

/-- Folding the whole record list over a present key adds the reference
totals. -/
theorem lookup_fold_data_some (stop : List (List Char)) (n : ℕ) (k : List Char) :
    ∀ (data : List QueryRecord) (m : AggMap) (s : NgramStats),
      lookupA k m = some s →
      lookupA k (data.foldl (addQuery stop n) m) =
        some (statsAdd s (statsTotal stop n k data))
  | [], m, s, h => by simpa [statsTotal, statsAdd_zero] using h
  | q :: data, m, s, h => by
    rw [List.foldl_cons,
      lookup_fold_data_some stop n k data _ _ (lookup_addQuery_some stop n q k m s h),
      statsTotal, statsAdd_assoc]

/-- Folding the whole record list over an absent key creates it exactly
when some record produces it, with the reference totals. -/
theorem lookup_fold_data_none (stop : List (List Char)) (n : ℕ) (k : List Char) :
    ∀ (data : List QueryRecord) (m : AggMap),
      lookupA k m = none →
      lookupA k (data.foldl (addQuery stop n) m) =
        if occTotal stop n k data = 0 then none else some (statsTotal stop n k data)
  | [], m, h => by simpa [occTotal, statsTotal] using h
  | q :: data, m, h => by
    rw [List.foldl_cons]
    by_cases h0 : (ngramsOfQuery stop n q).count k = 0
    · have h1 : lookupA k (addQuery stop n m q) = none := by
        rw [lookup_addQuery_none stop n q k m h, if_pos h0]
      rw [lookup_fold_data_none stop n k data _ h1]
      simp [occTotal, statsTotal, h0, scaleUnit_zero, zero_statsAdd]
    · have h1 : lookupA k (addQuery stop n m q) =
          some (statsAdd zeroStats (scaleUnit ((ngramsOfQuery stop n q).count k) q)) := by
        rw [lookup_addQuery_none stop n q k m h, if_neg h0]
      rw [lookup_fold_data_some stop n k data _ _ h1, zero_statsAdd]
      have h2 : ¬ occTotal stop n k (q :: data) = 0 := by
        simp only [occTotal]; omega
      rw [if_neg h2, statsTotal]

/-- Characterization of the aggregation map. -/
theorem lookupA_buildMap (stop : List (List Char)) (data : List QueryRecord)
    (n : ℕ) (k : List Char) :
    lookupA k (buildMap stop data n) =
      if occTotal stop n k data = 0 then none else some (statsTotal stop n k data) :=
  lookup_fold_data_none stop n k data [] rfl

/-- Lookup commutes with the derived-metrics post-pass. -/
theorem lookupD_deriveAll (k : List Char) :
    ∀ m : AggMap, lookupD k (deriveAll m) = (lookupA k m).map (derive k)
  | [] => rfl
  | (k₀, v) :: rest => by
    have ih := lookupD_deriveAll k rest
    simp only [deriveAll] at ih ⊢
    by_cases h : k₀ = k <;> simp [lookupD, lookupA, h, ih]

/-- Central characterization of the derived aggregate map: a key is
present exactly when some (query, occurrence) pair produces it, and its
aggregate is the derivation of the reference totals. -/
theorem lookupD_analyzeNgrams_eq (stop : List (List Char))
    (data : List QueryRecord) (n : ℕ) (k : List Char) :
    lookupD k (analyzeNgrams stop data n) =
      if occTotal stop n k data = 0 then none
      else some (derive k (statsTotal stop n k data)) := by
  unfold analyzeNgrams
  rw [lookupD_deriveAll, lookupA_buildMap]
  by_cases h : occTotal stop n k data = 0 <;> simp [h]

/-- The reference occurrence count is permutation-invariant. -/
theorem occTotal_perm (stop : List (List Char)) (n : ℕ) (k : List Char)
    {d₁ d₂ : List QueryRecord} (h : d₁.Perm d₂) :
    occTotal stop n k d₁ = occTotal stop n k d₂ := by
  induction h with
  | nil => rfl
  | cons x h ih => simp [occTotal, ih]
  | swap x y l => simp only [occTotal]; omega
  | trans h1 h2 ih1 ih2 => exact ih1.trans ih2

/-- The reference totals are permutation-invariant. -/
theorem statsTotal_perm (stop : List (List Char)) (n : ℕ) (k : List Char)
    {d₁ d₂ : List QueryRecord} (h : d₁.Perm d₂) :
    statsTotal stop n k d₁ = statsTotal stop n k d₂ := by
  induction h with
  | nil => rfl
  | cons x h ih => simp [statsTotal, ih]
  | swap x y l =>
    simp only [statsTotal]
    rw [← statsAdd_assoc, ← statsAdd_assoc,
      statsAdd_comm (scaleUnit (List.count k (ngramsOfQuery stop n y)) y)]
  | trans h1 h2 ih1 ih2 => exact ih1.trans ih2

/-- Key presence agrees with a successful lookup. -/
theorem lookupD_isSome_iff (k : List Char) :
    ∀ m : List (List Char × NgramAgg),
      (lookupD k m).isSome = true ↔ k ∈ m.map Prod.fst
  | [] => by simp [lookupD]
  | (k₀, v) :: rest => by
    have ih := lookupD_isSome_iff k rest
    rw [List.map_cons, List.mem_cons]
    by_cases h : k₀ = k
    · simp only [lookupD, if_pos h, Option.isSome_some]
      exact iff_of_true trivial (Or.inl h.symm)
    · have hk : ¬ k = k₀ := fun h' => h h'.symm
      simp only [lookupD, if_neg h]
      rw [ih]
      exact (or_iff_right hk).symm

/-- C8: aggregation is order-independent — permuting the input record
sequence yields an aggregate map with exactly the same keys and, for every
key, the same totals and derived metrics (exact rational sums). -/
theorem aggregation_order_independent (stop : List (List Char)) (n : ℕ)
    {d₁ d₂ : List QueryRecord} (h : d₁.Perm d₂) (k : List Char) :
    (k ∈ (analyzeNgrams stop d₁ n).map Prod.fst ↔
      k ∈ (analyzeNgrams stop d₂ n).map Prod.fst) ∧
    lookupD k (analyzeNgrams stop d₁ n) = lookupD k (analyzeNgrams stop d₂ n) := by
  have he : lookupD k (analyzeNgrams stop d₁ n) = lookupD k (analyzeNgrams stop d₂ n) := by
    rw [lookupD_analyzeNgrams_eq, lookupD_analyzeNgrams_eq,
      occTotal_perm stop n k h, statsTotal_perm stop n k h]
  refine ⟨?_, he⟩
  rw [← lookupD_isSome_iff, ← lookupD_isSome_iff, he]

/-- Sample records for concrete witnesses. -/
def qEx1 : QueryRecord :=
  { query := "red shoe".toList, campaign := "c1".toList,
    impressions := 10, clicks := 1, cost := 2, conversions := 0, conversionValue := 0 }

/-- Second sample record. -/
def qEx2 : QueryRecord :=
  { query := "blue shoe".toList, campaign := "c1".toList,
    impressions := 20, clicks := 2, cost := 3, conversions := 1, conversionValue := 5 }

/-- Witness for C8 at a concrete two-record swap. -/
theorem aggregation_order_independent_witness :
    lookupD "shoe".toList (analyzeNgrams [] [qEx1, qEx2] 1) =
      lookupD "shoe".toList (analyzeNgrams [] [qEx2, qEx1] 1) :=
  (aggregation_order_independent [] 1 (by decide) "shoe".toList).2

/-- The `queries` field of the reference totals is the occurrence count. -/
theorem statsTotal_queries (stop : List (List Char)) (n : ℕ) (k : List Char) :
    ∀ data : List QueryRecord,
      (statsTotal stop n k data).queries = occTotal stop n k data
  | [] => rfl
  | q :: data => by
    simp [statsTotal, occTotal, statsAdd, scaleUnit, statsTotal_queries stop n k data]

/-- Every string emitted by the JavaScript splitter is whitespace-free. -/
theorem jsSplitAux_no_ws :
    ∀ (s acc : List Char) (b : Bool), (∀ c ∈ acc, c.isWhitespace = false) →
      ∀ t ∈ jsSplitAux s acc b, ∀ c ∈ t, c.isWhitespace = false
  | [], acc, _, ha, t, ht, c, hc => by
    simp only [jsSplitAux, List.mem_singleton] at ht
    subst ht
    exact ha c (List.mem_reverse.mp hc)
  | d :: rest, acc, b, ha, t, ht, c, hc => by
    by_cases hw : d.isWhitespace
    · cases b with
      | true =>
        simp only [jsSplitAux, hw, if_true] at ht
        exact jsSplitAux_no_ws rest [] true (by simp) t ht c hc
      | false =>
        simp only [jsSplitAux, hw, if_true, Bool.false_eq_true, if_false,
          List.mem_cons] at ht
        rcases ht with ht | ht
        · subst ht; exact ha c (List.mem_reverse.mp hc)
        · exact jsSplitAux_no_ws rest [] true (by simp) t ht c hc
    · simp only [jsSplitAux, hw, Bool.false_eq_true, if_false] at ht
      refine jsSplitAux_no_ws rest (d :: acc) false ?_ t ht c hc
      intro c' hc'
      rcases List.mem_cons.mp hc' with hc' | hc'
      · subst hc'; simpa using hw
      · exact ha c' hc'

/-- Every token returned by the tokenizer has length > 1, is not a
stop word, and contains no whitespace. -/
theorem tokenize_mem (stop : List (List Char)) (s t : List Char)
    (ht : t ∈ tokenize stop s) :
    1 < t.length ∧ t ∉ stop ∧ ∀ c ∈ t, c.isWhitespace = false := by
  unfold tokenize at ht
  have hp := List.of_mem_filter ht
  have hm := List.mem_of_mem_filter ht
  simp only [Bool.and_eq_true, decide_eq_true_eq, Bool.not_eq_true'] at hp
  refine ⟨hp.1, by simpa using hp.2, ?_⟩
  exact jsSplitAux_no_ws (s.map Char.toLower) [] false (by simp) t hm

/-- Splitting at a character absent from the string is the identity. -/
theorem splitAtChar_of_not_mem (c : Char) :
    ∀ t : List Char, c ∉ t → splitAtChar c t = [t]
  | [], _ => rfl
  | d :: t, h => by
    have hd : ¬ d = c := fun h' => h (h' ▸ List.mem_cons_self d t)
    have ih := splitAtChar_of_not_mem c t (fun h' => h (List.mem_cons_of_mem d h'))
    simp [splitAtChar, hd, ih]

/-- Splitting separates at the first separator occurrence. -/
theorem splitAtChar_append (c : Char) :
    ∀ (t r : List Char), c ∉ t →
      splitAtChar c (t ++ c :: r) = t :: splitAtChar c r
  | [], r, _ => by simp [splitAtChar]
  | d :: t, r, h => by
    have hd : ¬ d = c := fun h' => h (h' ▸ List.mem_cons_self d t)
    have ih := splitAtChar_append c t r (fun h' => h (List.mem_cons_of_mem d h'))
    simp [splitAtChar, hd, ih]

/-- Space-joining whitespace-free tokens splits back into exactly those
tokens. -/
theorem splitAtChar_joinSp :
    ∀ ts : List (List Char), ts ≠ [] → (∀ t ∈ ts, ' ' ∉ t) →
      splitAtChar ' ' (joinSp ts) = ts
  | [], h, _ => absurd rfl h
  | [t], _, hts => by
    have h1 : joinSp [t] = t := by simp [joinSp, List.intercalate]
    rw [h1]
    exact splitAtChar_of_not_mem ' ' t (hts t (List.mem_singleton.mpr rfl))
  | t :: u :: ts, _, hts => by
    have hj : joinSp (t :: u :: ts) = t ++ ' ' :: joinSp (u :: ts) := by
      simp [joinSp, List.intercalate, List.intersperse]
    rw [hj, splitAtChar_append ' ' t _ (hts t (List.mem_cons_self t _)),
      splitAtChar_joinSp (u :: ts) (by simp)
        (fun x hx => hts x (List.mem_cons_of_mem _ hx))]

/-- Membership in the generated n-grams exhibits the window. -/
theorem mem_ngramsOfTokens {words : List (List Char)} {n : ℕ} {k : List Char}
    (h : k ∈ ngramsOfTokens words n) :
    ∃ i, i + n ≤ words.length ∧ k = joinSp ((words.drop i).take n) := by
  unfold ngramsOfTokens at h
  rcases List.mem_map.mp h with ⟨i, hi, rfl⟩
  have hi' := List.mem_range.mp hi
  exact ⟨i, by omega, rfl⟩

/-- A nonzero occurrence count exhibits a producing record. -/
theorem occTotal_pos (stop : List (List Char)) (n : ℕ) (k : List Char) :
    ∀ data : List QueryRecord, occTotal stop n k data ≠ 0 →
      ∃ q ∈ data, k ∈ ngramsOfQuery stop n q
  | [], h => absurd rfl h
  | q :: data, h => by
    by_cases h0 : (ngramsOfQuery stop n q).count k = 0
    · have h1 : occTotal stop n k data ≠ 0 := by
        simp only [occTotal, h0] at h
        omega
      obtain ⟨q', hq', hk⟩ := occTotal_pos stop n k data h1
      exact ⟨q', List.mem_cons_of_mem _ hq', hk⟩
    · exact ⟨q, List.mem_cons_self _ _,
        List.count_pos_iff.mp (Nat.pos_of_ne_zero h0)⟩

/-- C10: every key of a populated aggregate map for size `n ≥ 1` splits on
single spaces into exactly `n` tokens, each of length > 1 and not in the
stop-word set, and its aggregate has `queryCount ≥ 1` — entries are created
only by an actual occurrence. -/
theorem aggregate_keys_wellformed (stop : List (List Char))
    (data : List QueryRecord) (n : ℕ) (k : List Char) (a : NgramAgg)
    (hn : 1 ≤ n) (hk : lookupD k (analyzeNgrams stop data n) = some a) :
    1 ≤ a.queries ∧
    ∃ ts, splitAtChar ' ' k = ts ∧ ts.length = n ∧
      ∀ t ∈ ts, 1 < t.length ∧ t ∉ stop := by
  rw [lookupD_analyzeNgrams_eq] at hk
  by_cases h0 : occTotal stop n k data = 0
  · rw [if_pos h0] at hk
    exact absurd hk (by simp)
  · rw [if_neg h0] at hk
    have ha : derive k (statsTotal stop n k data) = a := Option.some.inj hk
    obtain ⟨q, _, hkq⟩ := occTotal_pos stop n k data h0
    obtain ⟨i, hin, hks⟩ := mem_ngramsOfTokens hkq
    constructor
    · rw [← ha]
      simp only [derive]
      rw [statsTotal_queries]
      omega
    · refine ⟨(( tokenize stop q.query).drop i).take n, ?_, ?_, ?_⟩
      · rw [hks]
        refine splitAtChar_joinSp _ ?_ ?_
        · refine List.ne_nil_of_length_pos ?_
          simp only [List.length_take, List.length_drop]
          omega
        · intro t ht hsp
          have hws := (tokenize_mem stop q.query t
            (List.mem_of_mem_drop (List.mem_of_mem_take ht))).2.2 ' ' hsp
          simp at hws
      · simp only [List.length_take, List.length_drop]
        omega
      · intro t ht
        have hp := tokenize_mem stop q.query t
          (List.mem_of_mem_drop (List.mem_of_mem_take ht))
        exact ⟨hp.1, hp.2.1⟩

/-- The aggregate of `"red"` in the single-record witness run. -/
def aEx : NgramAgg :=
  { ngram := "red".toList, queries := 1, impressions := 10, clicks := 1,
    cost := 2, conversions := 0, conversionValue := 0,
    ctr := 1 / 10, cpc := 2, convRate := 0, cpa := 0, roas := 0 }

/-- Concrete evaluation of the `"red"` aggregate in the one-record run. -/
theorem lookup_red_qEx1 : lookupD "red".toList (analyzeNgrams [] [qEx1] 1) = some aEx := by
  rw [lookupD_analyzeNgrams_eq]
  have h1 : occTotal [] 1 "red".toList [qEx1] = 1 := by decide
  have h2 : (ngramsOfQuery [] 1 qEx1).count "red".toList = 1 := by decide
  rw [h1]
  simp only [statsTotal, statsAdd, scaleUnit, zeroStats]
  rw [h2]
  norm_num [qEx1, derive, aEx]

/-- Witness for C10 at a concrete run. -/
theorem aggregate_keys_wellformed_witness :
    1 ≤ aEx.queries ∧
    ∃ ts, splitAtChar ' ' "red".toList = ts ∧ ts.length = 1 ∧
      ∀ t ∈ ts, 1 < t.length ∧ t ∉ ([] : List (List Char)) :=
  aggregate_keys_wellformed [] [qEx1] 1 "red".toList aEx (by decide) lookup_red_qEx1

/-- Default inhabitant for instance search. -/
instance : Inhabited NgramStats := ⟨zeroStats⟩

/-- Default inhabitant for instance search. -/
instance : Inhabited NgramAgg := ⟨derive [] zeroStats⟩

/-- Default inhabitant for instance search. -/
instance : Inhabited QueryRecord :=
  ⟨{ query := [], campaign := [], impressions := 0, clicks := 0,
     cost := 0, conversions := 0, conversionValue := 0 }⟩

/-- Characterization of the keyword-opportunity push for one aggregate. -/
theorem classifyEntry_kw_eq (cfg : Config) (s : ℕ) (ng : NgramAgg) (r : KeywordRec) :
    (classifyEntry cfg s ng).1 = some r ↔
      (cfg.minImpressions ≤ ng.impressions ∧ cfg.minClicks ≤ ng.clicks ∧
       (cfg.highCtrThreshold ≤ ng.ctr ∨ cfg.highConvRate ≤ ng.convRate) ∧
       r = { ngram := ng.ngram, size := s,
             reason := if cfg.highConvRate ≤ ng.convRate then "High conversion rate" else "High CTR",
             impressions := ng.impressions, clicks := ng.clicks, ctr := ng.ctr,
             conversions := ng.conversions, convRate := ng.convRate, cpa := ng.cpa }) := by
  by_cases h1 : ng.impressions < cfg.minImpressions
  · simp [classifyEntry, h1, Nat.not_le.mpr h1]
  · by_cases h2 : cfg.minClicks ≤ ng.clicks
    · by_cases h3 : cfg.highCtrThreshold ≤ ng.ctr ∨ cfg.highConvRate ≤ ng.convRate
      · simp [classifyEntry, h1, h2, h3, Nat.not_lt.mp h1, eq_comm]
      · simp [classifyEntry, h1, h2, h3]
    · simp [classifyEntry, h1, h2]

/-- Characterization of the negative-candidate push for one aggregate —
note it sits inside the `clicks ≥ minClicks` block in the source. -/
theorem classifyEntry_neg_eq (cfg : Config) (s : ℕ) (ng : NgramAgg) (r : NegativeRec) :
    (classifyEntry cfg s ng).2 = some r ↔
      (cfg.minImpressions ≤ ng.impressions ∧ cfg.minClicks ≤ ng.clicks ∧
       (ng.ctr ≤ cfg.lowCtrThreshold ∨
         (0 < cfg.targetCpa ∧ cfg.targetCpa * cfg.highCpaMultiplier < ng.cpa)) ∧
       r = { ngram := ng.ngram, size := s,
             reason := if ng.ctr ≤ cfg.lowCtrThreshold then "Low CTR" else "High CPA",
             impressions := ng.impressions, clicks := ng.clicks, ctr := ng.ctr,
             cost := ng.cost, conversions := ng.conversions, cpa := ng.cpa }) := by
  by_cases h1 : ng.impressions < cfg.minImpressions
  · simp [classifyEntry, h1, Nat.not_le.mpr h1]
  · by_cases h2 : cfg.minClicks ≤ ng.clicks
    · by_cases h3 : ng.ctr ≤ cfg.lowCtrThreshold ∨
          (0 < cfg.targetCpa ∧ cfg.targetCpa * cfg.highCpaMultiplier < ng.cpa)
      · simp [classifyEntry, h1, h2, h3, Nat.not_lt.mp h1, eq_comm]
      · simp [classifyEntry, h1, h2, h3]
    · simp [classifyEntry, h1, h2]

/-- Amended C1: the classifier places an aggregate in the negative-candidates
list exactly when it meets the volume floor (`impressions ≥ minImpressions`)
AND the clicks floor (`clicks ≥ minClicks`) AND
(`ctr ≤ lowCtrThreshold` OR (`targetCpa > 0` AND
`cpa > targetCpa × expensiveMultiplier`)) — the clicks condition is
required because the negative check is nested inside the
`clicks >= MIN_CLICKS` block of `generateRecommendations`. -/
theorem negative_membership (cfg : Config) (sizes : List ℕ)
    (results : ℕ → List (List Char × NgramAgg)) (r : NegativeRec) :
    r ∈ negativeCandidates cfg sizes results ↔
      ∃ s ∈ sizes, ∃ e ∈ results s,
        cfg.minImpressions ≤ e.2.impressions ∧ cfg.minClicks ≤ e.2.clicks ∧
        (e.2.ctr ≤ cfg.lowCtrThreshold ∨
          (0 < cfg.targetCpa ∧ cfg.targetCpa * cfg.highCpaMultiplier < e.2.cpa)) ∧
        r = { ngram := e.2.ngram, size := s,
              reason := if e.2.ctr ≤ cfg.lowCtrThreshold then "Low CTR" else "High CPA",
              impressions := e.2.impressions, clicks := e.2.clicks, ctr := e.2.ctr,
              cost := e.2.cost, conversions := e.2.conversions, cpa := e.2.cpa } := by
  simp [negativeCandidates, List.mem_flatMap, List.mem_filterMap, classifyEntry_neg_eq]

/-- High-volume, zero-click record: the prototypical negative candidate the
specification describes (volume floor met, CTR 0). -/
def qCex : QueryRecord :=
  { query := "ab cd".toList, campaign := "c2".toList,
    impressions := 100, clicks := 0, cost := 1, conversions := 0, conversionValue := 0 }

/-- One-record data set for the C1 counterexample. -/
def cexData : List QueryRecord := [qCex]

/-- The `"ab"` aggregate of the counterexample run. -/
def cexAgg : NgramAgg :=
  { ngram := "ab".toList, queries := 1, impressions := 100, clicks := 0,
    cost := 1, conversions := 0, conversionValue := 0,
    ctr := 0, cpc := 0, convRate := 0, cpa := 0, roas := 0 }

/-- The `"cd"` aggregate of the counterexample run. -/
def cexAggCd : NgramAgg :=
  { ngram := "cd".toList, queries := 1, impressions := 100, clicks := 0,
    cost := 1, conversions := 0, conversionValue := 0,
    ctr := 0, cpc := 0, convRate := 0, cpa := 0, roas := 0 }

/-- Concrete value of the aggregate map of the counterexample run. -/
theorem analyze_cexData :
    analyzeNgrams defaultStopWords cexData 1 =
      [("ab".toList, cexAgg), ("cd".toList, cexAggCd)] := by
  have hng : ngramsOfQuery defaultStopWords 1 qCex = ["ab".toList, "cd".toList] := by
    decide
  simp only [analyzeNgrams, buildMap, cexData, List.foldl_cons, List.foldl_nil,
    addQuery, hng]
  have hac : ¬ (('a' : Char) = 'c' ∧ ('b' : Char) = 'd') := by decide
  norm_num [bump, addRecord, zeroStats, qCex, deriveAll, derive, cexAgg, cexAggCd, hac]

/-- The counterexample run yields no negative candidates at all. -/
theorem negatives_empty_cex :
    negativeCandidates defaultConfig [1] (analyzeNgrams defaultStopWords cexData) = [] := by
  simp only [negativeCandidates, List.flatMap_cons, List.flatMap_nil, analyze_cexData]
  norm_num [classifyEntry, cexAgg, cexAggCd, defaultConfig,
    List.filterMap_cons, List.filterMap_nil]

/-- Counterexample to C1: the `"ab"` aggregate meets the volume floor
(100 ≥ 50 impressions) and the low-CTR condition (0 ≤ 0.01), so the claim
places it among the negative candidates; the code classifies nothing as
negative because the aggregate's 0 clicks fail the `clicks ≥ minClicks`
gate that encloses the negative check. -/
theorem negative_volumeonly_counterexample :
    lookupD "ab".toList (analyzeNgrams defaultStopWords cexData 1) = some cexAgg ∧
    defaultConfig.minImpressions ≤ cexAgg.impressions ∧
    cexAgg.ctr ≤ defaultConfig.lowCtrThreshold ∧
    cexAgg.clicks < defaultConfig.minClicks ∧
    negativeCandidates defaultConfig [1] (analyzeNgrams defaultStopWords cexData) = [] ∧
    (generateRecommendations defaultConfig [1] (analyzeNgrams defaultStopWords cexData)).negatives = [] := by
  refine ⟨?_, by decide, ?_, by decide, negatives_empty_cex, ?_⟩
  · rw [analyze_cexData]
    simp [lookupD]
  · norm_num [cexAgg, defaultConfig]
  · simp [generateRecommendations, negatives_empty_cex]

/-- Counterexample to C2: with a nonempty record feed and an empty
configured size list, `main` does not surface a configuration error and
does not stop before aggregation — it runs to completion and returns a
computed (empty) result bundle. -/
theorem no_failfast_counterexample :
    runMain defaultConfig [] defaultStopWords [qEx1] =
      Except.ok (MainOutput.done [] ⟨[], []⟩) := by
  simp [runMain, generateRecommendations, keywordCandidates, negativeCandidates, qEx1]

/-- Amended C2: the orchestrator never raises a configuration error — for
every configured size list (empty, non-positive or otherwise) the whole
computation runs and returns `Except.ok`; the only early exit is the
no-data return, taken exactly when the record sequence is empty. -/
theorem orchestrator_never_fails (cfg : Config) (sizes : List ℕ)
    (stop : List (List Char)) (data : List QueryRecord) :
    (∃ out, runMain cfg sizes stop data = Except.ok out) ∧
    (runMain cfg sizes stop data = Except.ok MainOutput.noData ↔ data = []) := by
  by_cases h : data = [] <;> simp [runMain, h]

/-- Absence of a key agrees with a failed lookup. -/
theorem lookupA_none_iff (k : List Char) :
    ∀ m : AggMap, lookupA k m = none ↔ k ∉ m.map Prod.fst
  | [] => by simp [lookupA]
  | (k₀, v) :: rest => by
    have ih := lookupA_none_iff k rest
    rw [List.map_cons, List.mem_cons]
    by_cases h : k₀ = k
    · simp [lookupA, h]
    · have hk : ¬ k = k₀ := fun h' => h h'.symm
      simp [lookupA, h, hk, ih]

/-- Keys after a bump: unchanged when the key is present, appended at the
end when it is new. -/
theorem bump_keys (q : QueryRecord) (k : List Char) :
    ∀ m : AggMap, (bump q m k).map Prod.fst =
      if lookupA k m = none then m.map Prod.fst ++ [k] else m.map Prod.fst
  | [] => by simp [bump, lookupA]
  | (k₀, v) :: rest => by
    by_cases h : k₀ = k
    · simp [bump, lookupA, h]
    · simp only [bump, if_neg h, List.map_cons, lookupA, bump_keys q k rest]
      by_cases h2 : lookupA k rest = none <;> simp [h2]

/-- A bump preserves distinctness of the keys. -/
theorem nodupKeys_bump (q : QueryRecord) (k : List Char) (m : AggMap)
    (h : (m.map Prod.fst).Nodup) : ((bump q m k).map Prod.fst).Nodup := by
  rw [bump_keys]
  by_cases h2 : lookupA k m = none
  · rw [if_pos h2]
    have hk := (lookupA_none_iff k m).mp h2
    rw [List.nodup_append]
    refine ⟨h, List.nodup_singleton k, ?_⟩
    intro x hx hxk
    rw [List.mem_singleton] at hxk
    exact hk (hxk ▸ hx)
  · rw [if_neg h2]; exact h

/-- A fold preserves any invariant its step preserves. -/
theorem foldl_invariant {α β : Type} (P : α → Prop) (f : α → β → α)
    (hf : ∀ a b, P a → P (f a b)) : ∀ (l : List β) (a : α), P a → P (l.foldl f a)
  | [], _, h => h
  | b :: l, a, h => foldl_invariant P f hf l (f a b) (hf a b h)

/-- Processing one query preserves distinctness of the keys. -/
theorem nodupKeys_addQuery (stop : List (List Char)) (n : ℕ) (m : AggMap)
    (q : QueryRecord) (h : (m.map Prod.fst).Nodup) :
    ((addQuery stop n m q).map Prod.fst).Nodup :=
  foldl_invariant (fun m' => (m'.map Prod.fst).Nodup) (bump q)
    (fun m' k hm' => nodupKeys_bump q k m' hm') (ngramsOfQuery stop n q) m h

/-- The aggregation map has distinct keys. -/
theorem nodupKeys_buildMap (stop : List (List Char)) (data : List QueryRecord)
    (n : ℕ) : ((buildMap stop data n).map Prod.fst).Nodup :=
  foldl_invariant (fun m => (m.map Prod.fst).Nodup) (addQuery stop n)
    (fun m q hm => nodupKeys_addQuery stop n m q hm) data [] (by simp)

/-- The derived map keeps the keys of the aggregation map. -/
theorem keys_analyzeNgrams (stop : List (List Char)) (data : List QueryRecord)
    (n : ℕ) :
    (analyzeNgrams stop data n).map Prod.fst = (buildMap stop data n).map Prod.fst := by
  simp [analyzeNgrams, deriveAll, List.map_map, Function.comp_def]

/-- The derived map has distinct keys. -/
theorem nodupKeys_analyzeNgrams (stop : List (List Char)) (data : List QueryRecord)
    (n : ℕ) : ((analyzeNgrams stop data n).map Prod.fst).Nodup := by
  rw [keys_analyzeNgrams]
  exact nodupKeys_buildMap stop data n

/-- Every entry of the derived map stores its own key as its `ngram` text. -/
theorem mem_analyzeNgrams_ngram (stop : List (List Char)) (data : List QueryRecord)
    (n : ℕ) : ∀ e ∈ analyzeNgrams stop data n, e.2.ngram = e.1 := by
  intro e he
  simp only [analyzeNgrams, deriveAll, List.mem_map] at he
  obtain ⟨e', _, rfl⟩ := he
  rfl

/-- A successful lookup exhibits the entry. -/
theorem lookupD_mem (k : List Char) :
    ∀ (m : List (List Char × NgramAgg)) (v : NgramAgg),
      lookupD k m = some v → (k, v) ∈ m
  | [], v, h => by simp [lookupD] at h
  | (k₀, v₀) :: rest, v, h => by
    by_cases hk : k₀ = k
    · subst hk
      have h' : v₀ = v := by simpa [lookupD] using h
      subst h'
      exact List.mem_cons_self _ _
    · simp only [lookupD, if_neg hk] at h
      exact List.mem_cons_of_mem _ (lookupD_mem k rest v h)

/-- Every keyword recommendation produced for one size carries that size. -/
theorem filterMap_kw_size (cfg : Config) (s : ℕ)
    (m : List (List Char × NgramAgg)) :
    ∀ r ∈ m.filterMap (fun e => (classifyEntry cfg s e.2).1), r.size = s := by
  intro r hr
  rcases List.mem_filterMap.mp hr with ⟨e, _, he⟩
  exact (((classifyEntry_kw_eq cfg s e.2 r).mp he).2.2.2 ▸ rfl)

/-- No keyword recommendation from a map that lacks the key survives the
key filter. -/
theorem filterMap_kw_filter_absent (cfg : Config) (s : ℕ) (k : List Char) :
    ∀ m : List (List Char × NgramAgg), k ∉ m.map Prod.fst →
      (∀ e ∈ m, e.2.ngram = e.1) →
      ((m.filterMap (fun e => (classifyEntry cfg s e.2).1)).filter
        (fun r => r.size == s && r.ngram == k)) = []
  | [], _, _ => rfl
  | e :: m, hk, hf => by
    have hk1 : ¬ k = e.1 := by
      intro h; exact hk (by simp [h])
    have hk2 : k ∉ m.map Prod.fst := by
      intro h; exact hk (by simp [h])
    have ih := filterMap_kw_filter_absent cfg s k m hk2
      (fun e' he' => hf e' (List.mem_cons_of_mem e he'))
    rw [List.filterMap_cons]
    cases hce : (classifyEntry cfg s e.2).1 with
    | none => simpa using ih
    | some r =>
      have hrn : r.ngram = e.1 := by
        rw [((classifyEntry_kw_eq cfg s e.2 r).mp hce).2.2.2]
        exact hf e (List.mem_cons_self e m)
      simp only [List.filter_cons]
      have hpr : (r.size == s && r.ngram == k) = false := by
        simp [hrn]
        intro _
        exact fun h => hk1 h.symm
      simp only [hpr, Bool.false_eq_true, if_false]
      exact ih

/-- With distinct keys, the key filter keeps exactly the recommendation of
the looked-up aggregate. -/
theorem filterMap_kw_filter_present (cfg : Config) (s : ℕ) (k : List Char)
    (ng : NgramAgg) :
    ∀ m : List (List Char × NgramAgg), (m.map Prod.fst).Nodup →
      (∀ e ∈ m, e.2.ngram = e.1) → lookupD k m = some ng →
      ((m.filterMap (fun e => (classifyEntry cfg s e.2).1)).filter
        (fun r => r.size == s && r.ngram == k)) = ((classifyEntry cfg s ng).1).toList
  | [], _, _, h => by simp [lookupD] at h
  | e :: m, hnd, hf, h => by
    obtain ⟨k₀, v⟩ := e
    by_cases hk : k₀ = k
    · subst hk
      have h' : v = ng := by simpa [lookupD] using h
      subst h'
      have hknotin : k₀ ∉ m.map Prod.fst := (List.nodup_cons.mp (by simpa using hnd)).1
      have habs := filterMap_kw_filter_absent cfg s k₀ m hknotin
        (fun e' he' => hf e' (List.mem_cons_of_mem _ he'))
      rw [List.filterMap_cons]
      cases hce : (classifyEntry cfg s v).1 with
      | none => simpa [hce] using habs
      | some r =>
        have hrn : r.ngram = k₀ := by
          rw [((classifyEntry_kw_eq cfg s v r).mp hce).2.2.2]
          exact hf (k₀, v) (List.mem_cons_self _ m)
        have hrs : r.size = s := ((classifyEntry_kw_eq cfg s v r).mp hce).2.2.2 ▸ rfl
        simp only [List.filter_cons, hrn, hrs, beq_self_eq_true, Bool.and_self, if_true]
        rw [habs]
        rfl
    · simp only [lookupD, if_neg hk] at h
      have hk1 : ¬ k = k₀ := fun h' => hk h'.symm
      have ih := filterMap_kw_filter_present cfg s k ng m
        (List.Nodup.of_cons (by simpa using hnd))
        (fun e' he' => hf e' (List.mem_cons_of_mem _ he')) h
      rw [List.filterMap_cons]
      cases hce : (classifyEntry cfg s v).1 with
      | none => simpa using ih
      | some r =>
        have hrn : r.ngram = k₀ := by
          rw [((classifyEntry_kw_eq cfg s v r).mp hce).2.2.2]
          exact hf (k₀, v) (List.mem_cons_self _ m)
        simp only [List.filter_cons]
        have hpr : (r.size == s && r.ngram == k) = false := by
          simp [hrn]
          intro _
          exact fun h' => hk1 h'.symm
        simp only [hpr, Bool.false_eq_true, if_false]
        exact ih

/-- Filtering a concatenation of per-size lists that all filter to nothing
yields nothing. -/
theorem flatMap_filter_eq_nil {α : Type} (p : α → Bool) (F : ℕ → List α) :
    ∀ l : List ℕ, (∀ x ∈ l, (F x).filter p = []) → (l.flatMap F).filter p = []
  | [], _ => rfl
  | x :: l, h => by
    rw [List.flatMap_cons, List.filter_append, h x (List.mem_cons_self x l),
      flatMap_filter_eq_nil p F l (fun y hy => h y (List.mem_cons_of_mem x hy))]
    rfl

/-- Filtering the concatenation over distinct sizes reduces to the one
contributing size. -/
theorem flatMap_filter_unique {α : Type} (p : α → Bool) (F : ℕ → List α) (s : ℕ) :
    ∀ sizes : List ℕ, sizes.Nodup → s ∈ sizes →
      (∀ s' ∈ sizes, s' ≠ s → (F s').filter p = []) →
      (sizes.flatMap F).filter p = (F s).filter p
  | [], _, hs, _ => absurd hs (by simp)
  | x :: sizes, hnd, hs, hother => by
    rw [List.flatMap_cons, List.filter_append]
    by_cases hx : x = s
    · subst hx
      have hnotin := (List.nodup_cons.mp hnd).1
      have hnil : ∀ y ∈ sizes, (F y).filter p = [] := by
        intro y hy
        have hyne : y ≠ x := fun h => hnotin (h ▸ hy)
        exact hother y (List.mem_cons_of_mem x hy) hyne
      rw [flatMap_filter_eq_nil p F sizes hnil]
      simp
    · rw [hother x (List.mem_cons_self x sizes) hx]
      have hs' : s ∈ sizes := by
        rcases List.mem_cons.mp hs with h | h
        · exact absurd h.symm hx
        · exact h
      rw [flatMap_filter_unique p F s sizes (List.Nodup.of_cons hnd) hs'
        (fun y hy hyne => hother y (List.mem_cons_of_mem x hy) hyne)]
      simp

/-- C7: an aggregate of the size-`s` map with `impressions ≥ minImpressions`,
`clicks ≥ minClicks` and (`ctr ≥ highCtrThreshold` OR
`convRate ≥ highConvRateThreshold`) receives exactly one
keyword-opportunity recommendation, whose reason is "High conversion rate"
when the conversion-rate threshold qualifies and otherwise "High CTR"
(stated as: the classification list filtered to that size and n-gram text
is exactly the one expected recommendation). -/
theorem keyword_opportunity_emitted (cfg : Config) (stop : List (List Char))
    (data : List QueryRecord) (sizes : List ℕ) (s : ℕ) (k : List Char) (ng : NgramAgg)
    (hnd : sizes.Nodup) (hs : s ∈ sizes)
    (hng : lookupD k (analyzeNgrams stop data s) = some ng)
    (h1 : cfg.minImpressions ≤ ng.impressions)
    (h2 : cfg.minClicks ≤ ng.clicks)
    (h3 : cfg.highCtrThreshold ≤ ng.ctr ∨ cfg.highConvRate ≤ ng.convRate) :
    (keywordCandidates cfg sizes (analyzeNgrams stop data)).filter
        (fun r => r.size == s && r.ngram == k) =
      [{ ngram := k, size := s,
         reason := if cfg.highConvRate ≤ ng.convRate then "High conversion rate" else "High CTR",
         impressions := ng.impressions, clicks := ng.clicks, ctr := ng.ctr,
         conversions := ng.conversions, convRate := ng.convRate, cpa := ng.cpa }] := by
  have hkk : ng.ngram = k :=
    mem_analyzeNgrams_ngram stop data s (k, ng)
      (lookupD_mem k (analyzeNgrams stop data s) ng hng)
  unfold keywordCandidates
  rw [flatMap_filter_unique _ _ s sizes hnd hs ?_]
  · rw [filterMap_kw_filter_present cfg s k ng (analyzeNgrams stop data s)
      (nodupKeys_analyzeNgrams stop data s) (mem_analyzeNgrams_ngram stop data s) hng]
    have hpush : (classifyEntry cfg s ng).1 =
        some { ngram := ng.ngram, size := s,
               reason := if cfg.highConvRate ≤ ng.convRate then "High conversion rate" else "High CTR",
               impressions := ng.impressions, clicks := ng.clicks, ctr := ng.ctr,
               conversions := ng.conversions, convRate := ng.convRate, cpa := ng.cpa } := by
      simp [classifyEntry, Nat.not_lt.mpr h1, h2, h3]
    rw [hpush, hkk]
    rfl
  · intro s' _ hne
    rw [List.filter_eq_nil_iff]
    intro r hr
    have := filterMap_kw_size cfg s' (analyzeNgrams stop data s') r hr
    simp [this, hne]

/-- Record for the C7 witness: one high-performing query. -/
def qKw : QueryRecord :=
  { query := "red shoe".toList, campaign := "c3".toList,
    impressions := 100, clicks := 10, cost := 2, conversions := 1, conversionValue := 5 }

/-- The `"red"` aggregate of the C7 witness run. -/
def kwAgg : NgramAgg :=
  { ngram := "red".toList, queries := 1, impressions := 100, clicks := 10,
    cost := 2, conversions := 1, conversionValue := 5,
    ctr := 1 / 10, cpc := 1 / 5, convRate := 1 / 10, cpa := 2, roas := 5 / 2 }

/-- Concrete evaluation of the `"red"` aggregate in the C7 witness run. -/
theorem lookup_red_qKw : lookupD "red".toList (analyzeNgrams [] [qKw] 1) = some kwAgg := by
  rw [lookupD_analyzeNgrams_eq]
  have h1 : occTotal [] 1 "red".toList [qKw] = 1 := by decide
  have h2 : (ngramsOfQuery [] 1 qKw).count "red".toList = 1 := by decide
  rw [h1]
  simp only [statsTotal, statsAdd, scaleUnit, zeroStats]
  rw [h2]
  norm_num [qKw, derive, kwAgg]

/-- Witness for C7 at a concrete run. -/
theorem keyword_opportunity_emitted_witness :
    (keywordCandidates defaultConfig [1] (analyzeNgrams [] [qKw])).filter
        (fun r => r.size == 1 && r.ngram == "red".toList) =
      [{ ngram := "red".toList, size := 1,
         reason := if defaultConfig.highConvRate ≤ kwAgg.convRate then "High conversion rate" else "High CTR",
         impressions := kwAgg.impressions, clicks := kwAgg.clicks, ctr := kwAgg.ctr,
         conversions := kwAgg.conversions, convRate := kwAgg.convRate, cpa := kwAgg.cpa }] :=
  keyword_opportunity_emitted defaultConfig [] [qKw] [1] 1 "red".toList kwAgg
    (by decide) (by decide) lookup_red_qKw (by decide) (by decide)
    (by norm_num [defaultConfig, kwAgg])

/-- The keyword comparator is transitive. -/
theorem kwLe_trans : ∀ a b c : KeywordRec,
    kwLe a b = true → kwLe b c = true → kwLe a c = true := by
  intro a b c hab hbc
  simp only [kwLe, decide_eq_true_eq] at *
  exact le_trans hbc hab

/-- The keyword comparator is total. -/
theorem kwLe_total : ∀ a b : KeywordRec, (kwLe a b || kwLe b a) = true := by
  intro a b
  simp only [kwLe, Bool.or_eq_true, decide_eq_true_eq]
  exact le_total b.conversions a.conversions

/-- The negative comparator is transitive. -/
theorem negLe_trans : ∀ a b c : NegativeRec,
    negLe a b = true → negLe b c = true → negLe a c = true := by
  intro a b c hab hbc
  simp only [negLe, decide_eq_true_eq] at *
  exact le_trans hbc hab

/-- The negative comparator is total. -/
theorem negLe_total : ∀ a b : NegativeRec, (negLe a b || negLe b a) = true := by
  intro a b
  simp only [negLe, Bool.or_eq_true, decide_eq_true_eq]
  exact le_total b.cost a.cost

/-- C9: both recommendation lists have length at most 100 (the source's
`maxResultsPerCategory`), the keyword list is sorted by descending
conversions, the negative list by descending cost, and each equals the
first 100 entries of a sorted permutation of its full candidate list —
sorting happens before truncation. -/
theorem recommendation_lists_sorted_capped (cfg : Config) (sizes : List ℕ)
    (results : ℕ → List (List Char × NgramAgg)) :
    (generateRecommendations cfg sizes results).keywords.length ≤ 100 ∧
    (generateRecommendations cfg sizes results).negatives.length ≤ 100 ∧
    (generateRecommendations cfg sizes results).keywords.Pairwise
      (fun a b => b.conversions ≤ a.conversions) ∧
    (generateRecommendations cfg sizes results).negatives.Pairwise
      (fun a b => b.cost ≤ a.cost) ∧
    (∃ full : List KeywordRec, full.Perm (keywordCandidates cfg sizes results) ∧
      full.Pairwise (fun a b => b.conversions ≤ a.conversions) ∧
      (generateRecommendations cfg sizes results).keywords = full.take 100) ∧
    (∃ full : List NegativeRec, full.Perm (negativeCandidates cfg sizes results) ∧
      full.Pairwise (fun a b => b.cost ≤ a.cost) ∧
      (generateRecommendations cfg sizes results).negatives = full.take 100) := by
  have hkw : ((keywordCandidates cfg sizes results).mergeSort kwLe).Pairwise
      (fun a b => b.conversions ≤ a.conversions) := by
    have hp := @List.sorted_mergeSort KeywordRec kwLe kwLe_trans kwLe_total
      (keywordCandidates cfg sizes results)
    exact hp.imp (fun h => by simpa [kwLe, decide_eq_true_eq] using h)
  have hneg : ((negativeCandidates cfg sizes results).mergeSort negLe).Pairwise
      (fun a b => b.cost ≤ a.cost) := by
    have hp := @List.sorted_mergeSort NegativeRec negLe negLe_trans negLe_total
      (negativeCandidates cfg sizes results)
    exact hp.imp (fun h => by simpa [negLe, decide_eq_true_eq] using h)
  refine ⟨?_, ?_, ?_, ?_,
    ⟨_, List.mergeSort_perm _ kwLe, hkw, rfl⟩,
    ⟨_, List.mergeSort_perm _ negLe, hneg, rfl⟩⟩
  · simp only [generateRecommendations, List.length_take]
    exact min_le_left _ _
  · simp only [generateRecommendations, List.length_take]
    exact min_le_left _ _
  · exact List.Pairwise.sublist (List.take_sublist _ _) hkw
  · exact List.Pairwise.sublist (List.take_sublist _ _) hneg

/-- C3: for every input record sequence and n-gram size, the aggregator
adds the query's full impressions/clicks/cost/conversions/conversionValue
once per occurrence of the n-gram within the query (repeats counted — see
`scaleUnit`/`statsTotal`), and `queryCount` (`queries`) equals the number
of (query, occurrence) pairs producing that n-gram text (`occTotal`). -/
theorem aggregation_totals_per_occurrence (stop : List (List Char))
    (data : List QueryRecord) (n : ℕ) (k : List Char) :
    lookupD k (analyzeNgrams stop data n) =
      (if occTotal stop n k data = 0 then none
       else some (derive k (statsTotal stop n k data))) ∧
    ∀ a, lookupD k (analyzeNgrams stop data n) = some a →
      a.queries = occTotal stop n k data := by
  refine ⟨lookupD_analyzeNgrams_eq stop data n k, fun a ha => ?_⟩
  rw [lookupD_analyzeNgrams_eq stop data n k] at ha
  by_cases h0 : occTotal stop n k data = 0
  · rw [if_pos h0] at ha
    exact absurd ha (by simp)
  · rw [if_neg h0] at ha
    rw [← Option.some.inj ha]
    simp only [derive]
    exact statsTotal_queries stop n k data

/-- Witness for C3 at a concrete run. -/
theorem aggregation_totals_per_occurrence_witness :
    aEx.queries = occTotal [] 1 "red".toList [qEx1] :=
  (aggregation_totals_per_occurrence [] [qEx1] 1 "red".toList).2 aEx lookup_red_qEx1
